import Mathlib

/-!
# A shallow embedding of the `sconfig` configuration-file parser

This file embeds the Go package `sconfig` (file `sconfig.go`: `readFile`,
`removeComments`, `collapseWhitespace`, `Parse`, `fmterr`, `fieldNameFromKey`,
`setFromHandler`, `setFromTypeHandler`, `parseBool` and the built-in type
handlers) and proves properties of the embedding.

Design notes on the embedding:

* Go strings are modelled as `List Char`.  All byte-level index accesses in
  the source (`line[cmt-1]`, `line[i-1]`, `line[0]`) compare a byte against an
  ASCII character (`'\\'`, `'#'`) or test `unicode.IsSpace(rune(line[0]))`.
  In well-formed UTF-8 every byte of a multi-byte character is `≥ 0x80`, so a
  byte equals an ASCII code exactly when the character it belongs to is that
  single-byte character, and `rune(line[0])` is a whitespace rune only for the
  single-byte ASCII whitespace characters.  The character-level model below is
  therefore byte-faithful; the few places where the *byte* length matters
  (`i != len(line)-1` in `collapseWhitespace`) use `Char.utf8Size`.
* Fallible Go functions return `Outcome α`: `ok`, `err` (a returned `error`
  value) or `panicked` (a run-time panic escaping the function).
* Recursion that is not structural in the source (the `removeComments` loop,
  `strings.Replace`, the recursive `source` inclusion of `readFile`) is given
  explicit fuel; every theorem either supplies ample fuel for its concrete
  input or carries the fuel bound as a hypothesis.
-/

set_option maxHeartbeats 1000000
set_option linter.unusedVariables false

abbrev Str := List Char

/-- Convert a Lean string literal to the `List Char` model. -/
def cs (s : String) : Str := s.toList

/-- Result of a fallible Go function: a normal value, a returned non-nil
`error`, or a run-time panic that escapes the function. -/
inductive Outcome (α : Type) where
  | ok (a : α)
  | err (e : Str)
  | panicked (m : Str)
deriving DecidableEq, Repr

def Outcome.bind {α β : Type} : Outcome α → (α → Outcome β) → Outcome β
  | .ok a, f => f a
  | .err e, _ => .err e
  | .panicked m, _ => .panicked m

/-- Go `unicode.IsSpace`: the Unicode White_Space property. -/
def goIsSpace (c : Char) : Bool :=
  c = ' ' ∨ c = '\t' ∨ c = '\n' ∨ (c.val = 11) ∨ (c.val = 12) ∨ c = '\r' ∨
  (c.val = 0x85) ∨ (c.val = 0xA0) ∨ (c.val = 0x1680) ∨
  (0x2000 ≤ c.val ∧ c.val ≤ 0x200A) ∨ (c.val = 0x2028) ∨ (c.val = 0x2029) ∨
  (c.val = 0x202F) ∨ (c.val = 0x205F) ∨ (c.val = 0x3000)

/-- Go `strings.ToLower` on one character.  Besides ASCII, the only Unicode
code points whose simple lowercase mapping is an ASCII character are
U+0130 (İ → i) and U+212A (KELVIN SIGN → k); they are included so that
membership of a lowered string in an ASCII vocabulary agrees with Go. -/
def goLowerChar (c : Char) : Char :=
  if 'A' ≤ c ∧ c ≤ 'Z' then Char.ofNat (c.toNat + 32)
  else if c.val = 0x130 then 'i'
  else if c.val = 0x212A then 'k'
  else c

def goToLower (s : Str) : Str := s.map goLowerChar

/-- Go `strings.TrimSpace` (trim Unicode whitespace from both ends). -/
def goTrimSpace (s : Str) : Str :=
  ((s.dropWhile goIsSpace).reverse.dropWhile goIsSpace).reverse

/-- Go `strings.Split(s, " ")`: split on every single space, keeping empty
fields; the result is always non-empty. -/
def splitSp : Str → List Str
  | [] => [[]]
  | c :: rest =>
    let r := splitSp rest
    if c = ' ' then [] :: r
    else (c :: r.headI) :: r.tail

/-- Go `strings.Join(v, " ")`. -/
def joinSp : List Str → Str
  | [] => []
  | [s] => s
  | s :: rest => s ++ ' ' :: joinSp rest

theorem splitSp_ne_nil (s : Str) : splitSp s ≠ [] := by
  cases s with
  | nil => simp [splitSp]
  | cons c rest =>
    simp only [splitSp]
    split <;> simp

/-! ## Comment removal (`removeComments`, sconfig.go lines 135-157) -/

/-- Index of the first `'#'` in a list (Go `strings.Index(s, "#")`). -/
def indexOfHash : Str → Option Nat
  | [] => none
  | c :: rest => if c = '#' then some 0 else (indexOfHash rest).map (· + 1)

/-- Go `strings.Index(line[start:], "#") + start` (absolute index). -/
def findHash (line : Str) (start : Nat) : Option Nat :=
  (indexOfHash (line.drop start)).map (start + ·)

/-- The `for` loop of `removeComments`, with explicit fuel.  `prevcmt` is the
loop variable of the source; `line[cmt-1]` with `cmt = 0` is an
out-of-range byte access in Go, modelled as a panic. -/
def rcLoopF : Nat → Str → Nat → Outcome Str
  | 0, _, _ => .panicked (cs "model: out of fuel")
  | fuel + 1, line, prevcmt =>
    match findHash line prevcmt with
    | none => .ok line
    | some cmt =>
      if cmt = 0 then .panicked (cs "runtime error: index out of range")
      else if line.getD (cmt - 1) ' ' = '\\' then
        rcLoopF fuel (line.take (cmt - 1) ++ line.drop cmt) cmt
      else .ok (line.take cmt)

/-- Go `removeComments`.  The loop shortens `line.length - prevcmt` at every
iteration, so `line.length + 1` units of fuel always suffice. -/
def removeComments (line : Str) : Outcome Str :=
  rcLoopF (line.length + 1) line 0

/-- The comment-removal scan as the specification describes it: walk left to
right; a `'#'` immediately preceded by a backslash becomes a literal `'#'`
with the backslash dropped; the first `'#'` not so preceded truncates the
line. -/
def scanComments : Str → Str
  | [] => []
  | [c] => if c = '#' then [] else [c]
  | c :: d :: rest =>
    if c = '#' then []
    else if c = '\\' ∧ d = '#' then '#' :: scanComments rest
    else c :: scanComments (d :: rest)

theorem indexOfHash_none : ∀ (l : Str), indexOfHash l = none → ∀ c ∈ l, c ≠ '#' := by
  intro l
  induction l with
  | nil => intro _ c hc; cases hc
  | cons a rest ih =>
    intro h c hc
    by_cases ha : a = '#'
    · simp [indexOfHash, ha] at h
    · simp only [indexOfHash, ha, if_false, if_neg ha, Option.map_eq_none] at h
      rcases List.mem_cons.mp hc with rfl | hc
      · exact ha
      · exact ih (Option.map_eq_none.mp h) c hc

theorem indexOfHash_some : ∀ (l : Str) (i : Nat), indexOfHash l = some i →
    i < l.length ∧ l.getD i ' ' = '#' ∧ ∀ j < i, l.getD j ' ' ≠ '#' := by
  intro l
  induction l with
  | nil => intro i h; simp [indexOfHash] at h
  | cons a rest ih =>
    intro i h
    by_cases ha : a = '#'
    · simp only [indexOfHash, ha, if_pos rfl] at h
      cases h
      refine ⟨by simp, by simp [ha], ?_⟩
      intro j hj; omega
    · simp only [indexOfHash, if_neg ha] at h
      rcases Option.map_eq_some'.mp h with ⟨k, hk, rfl⟩
      obtain ⟨h1, h2, h3⟩ := ih k hk
      refine ⟨by simpa using h1, by simpa using h2, ?_⟩
      intro j hj
      cases j with
      | zero => simpa using ha
      | succ j' =>
        simpa using h3 j' (by omega)

theorem scanComments_nil : scanComments [] = [] := rfl

theorem scanComments_cons (c : Char) (rest : Str) :
    scanComments (c :: rest) =
      if c = '#' then []
      else if c = '\\' ∧ rest.head? = some '#' then '#' :: scanComments rest.tail
      else c :: scanComments rest := by
  cases rest with
  | nil =>
    simp only [scanComments, List.head?_nil, List.tail_nil]
    by_cases hc : c = '#'
    · simp [hc]
    · simp [hc]
  | cons d r =>
    simp only [scanComments, List.head?_cons, List.tail_cons, Option.some.injEq]

theorem scanComments_no_hash : ∀ (l : Str), (∀ c ∈ l, c ≠ '#') → scanComments l = l := by
  intro l
  induction l with
  | nil => intro _; exact scanComments_nil
  | cons c rest ih =>
    intro h
    rw [scanComments_cons]
    have hc : c ≠ '#' := h c (by simp)
    rw [if_neg hc]
    have h2 : ¬(c = '\\' ∧ rest.head? = some '#') := by
      rintro ⟨-, hh⟩
      cases rest with
      | nil => simp at hh
      | cons d r =>
        simp only [List.head?_cons, Option.some.injEq] at hh
        exact h d (by simp [hh]) hh
    rw [if_neg h2, ih (fun x hx => h x (List.mem_cons_of_mem _ hx))]

theorem scanComments_append : ∀ (M rest : Str), (∀ c ∈ M, c ≠ '#') →
    (M.getLast? = some '\\' → rest.head? ≠ some '#') →
    scanComments (M ++ rest) = M ++ scanComments rest := by
  intro M
  induction M with
  | nil => intro rest _ _; rfl
  | cons c M' ih =>
    intro rest hM hb
    have hc : c ≠ '#' := hM c (by simp)
    rw [List.cons_append, scanComments_cons, if_neg hc]
    have h2 : ¬(c = '\\' ∧ (M' ++ rest).head? = some '#') := by
      rintro ⟨rfl, hh⟩
      cases M' with
      | nil =>
        simp only [List.nil_append] at hh
        exact hb (by simp) hh
      | cons d r =>
        simp only [List.cons_append, List.head?_cons, Option.some.injEq] at hh
        exact hM d (by simp [hh]) hh
    rw [if_neg h2, List.cons_append]
    congr 1
    refine ih rest (fun x hx => hM x (List.mem_cons_of_mem _ hx)) ?_
    intro hlast
    refine hb ?_
    cases M' with
    | nil => simp at hlast
    | cons d r => rw [List.getLast?_cons_cons]; exact hlast

theorem take_no_hash : ∀ (R : Str) (n : Nat), (∀ j < n, R.getD j ' ' ≠ '#') →
    ∀ c ∈ R.take n, c ≠ '#' := by
  intro R
  induction R with
  | nil => intro n _ c hc; simp at hc
  | cons a R' ih =>
    intro n h c hc
    cases n with
    | zero => simp at hc
    | succ n' =>
      rw [List.take_succ_cons] at hc
      rcases List.mem_cons.mp hc with rfl | hc'
      · simpa using h 0 (by omega)
      · exact ih n' (fun j hj => by simpa using h (j + 1) (by omega)) c hc'

theorem take_append_plus (P R : Str) (k : Nat) :
    (P ++ R).take (P.length + k) = P ++ R.take k := by
  induction P with
  | nil => simp
  | cons a P' ih => simp [Nat.succ_add, ih]

theorem drop_append_plus (P R : Str) (k : Nat) :
    (P ++ R).drop (P.length + k) = R.drop k := by
  induction P with
  | nil => simp
  | cons a P' ih => simp [Nat.succ_add, ih]

/-- The invariant-carrying loop lemma: with `prevcmt = P.length`, where `P` is
the processed prefix (empty, or ending in a literal `'#'`), the loop computes
the specification scan of the remainder `R`. -/
theorem rcLoopF_eq_scan : ∀ (fuel : Nat) (P R : Str),
    R.length < fuel →
    (P = [] → R.head? ≠ some '#') →
    (P ≠ [] → P.getLast? = some '#') →
    rcLoopF fuel (P ++ R) P.length = .ok (P ++ scanComments R) := by
  intro fuel
  induction fuel with
  | zero => intro P R h _ _; omega
  | succ fuel ih =>
    intro P R hfuel hP0 hPlast
    have hdropPR : (P ++ R).drop P.length = R := List.drop_left P R
    simp only [rcLoopF, findHash, hdropPR]
    cases hIdx : indexOfHash R with
    | none =>
      simp only [Option.map_none']
      rw [scanComments_no_hash R (indexOfHash_none R hIdx)]
    | some i =>
      obtain ⟨hi, hgetD, hlt⟩ := indexOfHash_some R i hIdx
      simp only [Option.map_some']
      have hcmt0 : ¬(P.length + i = 0) := by
        intro h0
        have hP : P = [] := by
          have : P.length = 0 := by omega
          exact List.length_eq_zero.mp this
        have hi0 : i = 0 := by omega
        subst hP hi0
        cases R with
        | nil => simp at hi
        | cons a R' =>
          exact hP0 rfl (by simpa using congrArg some (by simpa using hgetD))
      rw [if_neg hcmt0]
      cases i with
      | zero =>
        have hPne : P ≠ [] := by
          intro h; subst h; simp at hcmt0
        have hPlen : 1 ≤ P.length := by
          cases P with
          | nil => exact absurd rfl hPne
          | cons _ _ => simp
        have hprev : (P ++ R).getD (P.length + 0 - 1) ' ' = '#' := by
          rw [Nat.add_zero, List.getD_append _ _ _ _ (by omega)]
          have := hPlast hPne
          rw [List.getLast?_eq_getElem?] at this
          rw [List.getD_eq_getElem?_getD, this]
          rfl
        rw [hprev]
        have : ¬(('#' : Char) = '\\') := by decide
        rw [if_neg this]
        have htake : (P ++ R).take (P.length + 0) = P := by
          rw [Nat.add_zero]; exact List.take_left P R
        rw [htake]
        cases R with
        | nil => simp at hi
        | cons a R' =>
          have ha : a = '#' := by simpa using hgetD
          subst ha
          rw [scanComments_cons, if_pos rfl, List.append_nil]
      | succ i' =>
        have hprev : (P ++ R).getD (P.length + (i' + 1) - 1) ' ' = R.getD i' ' ' := by
          have h1 : P.length + (i' + 1) - 1 = P.length + i' := by omega
          rw [h1, List.getD_append_right _ _ _ _ (by omega)]
          congr 1
          omega
        rw [hprev]
        have hi'R : i' < R.length := by omega
        have hi1R : i' + 1 < R.length := hi
        have hdrop1 : R.drop (i' + 1) = '#' :: R.drop (i' + 2) := by
          rw [List.drop_eq_getElem_cons hi1R]
          congr 1
          rw [List.getD_eq_getElem _ _ hi1R] at hgetD
          exact hgetD
        by_cases hx : R.getD i' ' ' = '\\'
        · rw [if_pos hx]
          have htake2 : (P ++ R).take (P.length + (i' + 1) - 1) = P ++ R.take i' := by
            have h1 : P.length + (i' + 1) - 1 = P.length + i' := by omega
            rw [h1, take_append_plus]
          have hdrop2 : (P ++ R).drop (P.length + (i' + 1)) = '#' :: R.drop (i' + 2) := by
            rw [drop_append_plus, hdrop1]
          rw [htake2, hdrop2]
          have hline : (P ++ R.take i') ++ '#' :: R.drop (i' + 2)
              = ((P ++ R.take i') ++ ['#']) ++ R.drop (i' + 2) := by
            simp
          have hlen : P.length + (i' + 1) = ((P ++ R.take i') ++ ['#']).length := by
            simp [List.length_take]
            omega
          rw [hline, hlen]
          rw [ih ((P ++ R.take i') ++ ['#']) (R.drop (i' + 2))
            (by simp [List.length_drop]; omega)
            (by intro h; simp at h)
            (by intro _; exact List.getLast?_concat _)]
          congr 1
          have hR : R = R.take i' ++ '\\' :: '#' :: R.drop (i' + 2) := by
            conv_lhs => rw [← List.take_append_drop i' R]
            congr 1
            rw [List.drop_eq_getElem_cons hi'R,
              ← List.getD_eq_getElem R ' ' hi'R, hx, hdrop1]
          have hcne : ¬(('\\' : Char) = '#') := by decide
          have hscan : scanComments R
              = R.take i' ++ '#' :: scanComments (R.drop (i' + 2)) := by
            conv_lhs => rw [hR]
            rw [scanComments_append _ _ (take_no_hash R i' (fun j hj => hlt j (by omega)))
              (by intro _; simp)]
            rw [scanComments_cons, if_neg hcne, if_pos ⟨rfl, by simp⟩]
            simp
          rw [hscan]
          simp
        · rw [if_neg hx]
          have htake3 : (P ++ R).take (P.length + (i' + 1)) = P ++ R.take (i' + 1) := by
            rw [take_append_plus]
          rw [htake3]
          congr 1
          have hR : R = R.take (i' + 1) ++ '#' :: R.drop (i' + 2) := by
            conv_lhs => rw [← List.take_append_drop (i' + 1) R]
            rw [hdrop1]
          have hscan : scanComments R = R.take (i' + 1) := by
            conv_lhs => rw [hR]
            rw [scanComments_append _ _ (take_no_hash R (i' + 1) hlt) ?_]
            · rw [scanComments_cons, if_pos rfl, List.append_nil]
            · intro hlast
              exfalso
              rw [List.take_succ, List.getElem?_eq_getElem hi'R] at hlast
              simp only [Option.toList_some, List.getLast?_concat, Option.some.injEq] at hlast
              rw [List.getD_eq_getElem _ _ hi'R] at hx
              exact hx hlast
          rw [hscan]

/-- C5: for a non-empty line that does not start with `'#'`, `removeComments`
computes exactly the left-to-right scan of the claim: each `'#'` immediately
preceded by a backslash becomes a literal `'#'` with the backslash removed,
the first `'#'` not so preceded truncates the line from that position on,
and a line with no unescaped `'#'` is returned with only the escape
backslashes removed (`scanComments` encodes that scan). -/
theorem C5_removeComments_is_scan (line : Str) (hne : line ≠ [])
    (h0 : line.head? ≠ some '#') :
    removeComments line = .ok (scanComments line) := by
  have h := rcLoopF_eq_scan (line.length + 1) [] line (by omega)
    (fun _ => h0) (by intro h; exact absurd rfl h)
  simpa [removeComments] using h

theorem C5_removeComments_is_scan_witness :
    cs "a\\#b#c" ≠ [] ∧ (cs "a\\#b#c").head? ≠ some '#' ∧
      removeComments (cs "a\\#b#c") = .ok (scanComments (cs "a\\#b#c")) ∧
      scanComments (cs "a\\#b#c") = cs "a#b" :=
  ⟨by decide, by decide,
   C5_removeComments_is_scan (cs "a\\#b#c") (by decide) (by decide), by decide⟩

/-! ## Whitespace collapsing (`collapseWhitespace`, sconfig.go lines 159-188) -/

def Outcome.map {α β : Type} (f : α → β) : Outcome α → Outcome β
  | .ok a => .ok (f a)
  | .err e => .err e
  | .panicked m => .panicked m

/-- The `for i, char := range line` loop of `collapseWhitespace`.  `prev` is
the character ending at byte `i-1` (`none` at the start, where `line[i-1]`
would be an out-of-range access), `prevSpace` is the flag of the source.  The
source's `i != len(line)-1` test (byte positions) holds exactly when the
current character is not the sole final byte, i.e. unless the rest is empty
and the character is one UTF-8 byte wide. -/
def cwLoop : Option Char → Bool → Str → Outcome Str
  | _, _, [] => .ok []
  | prev, prevSpace, c :: rest =>
    if c = '\\' then
      match prev with
      | none => .panicked (cs "runtime error: index out of range")
      | some p =>
        if p = '\\' then (cwLoop (some c) prevSpace rest).map ('\\' :: ·)
        else cwLoop (some c) prevSpace rest
    else if goIsSpace c then
      if prevSpace then
        match prev with
        | none => .panicked (cs "runtime error: index out of range")
        | some p =>
          if p = '\\' then (cwLoop (some c) prevSpace rest).map (c :: ·)
          else cwLoop (some c) prevSpace rest
      else
        if rest = [] ∧ c.utf8Size = 1 then cwLoop (some c) true rest
        else (cwLoop (some c) true rest).map (' ' :: ·)
    else (cwLoop (some c) false rest).map (c :: ·)

def collapseWhitespace (line : Str) : Outcome Str := cwLoop none false line

/-- A character that is neither whitespace nor a backslash. -/
def plainChar (c : Char) : Bool := ¬ goIsSpace c ∧ c ≠ '\\'

theorem Outcome.map_map {α β γ : Type} (o : Outcome α) (f : α → β) (g : β → γ) :
    (o.map f).map g = o.map (fun x => g (f x)) := by
  cases o <;> rfl

theorem ws_ne_backslash {c : Char} (h : goIsSpace c = true) : c ≠ '\\' := by
  intro hc
  subst hc
  simp [goIsSpace] at h

theorem plainChar_not_space {c : Char} (h : plainChar c = true) : ¬ goIsSpace c = true := by
  simp [plainChar] at h
  simp [h.1]

theorem plainChar_ne_bs {c : Char} (h : plainChar c = true) : c ≠ '\\' := by
  simp [plainChar] at h
  exact h.2

/-- The loop state only inspects the previous character through the test
`line[i-1] == '\\'`, so two non-backslash previous characters are
interchangeable. -/
theorem cwLoop_prev_irrel (v : Str) (p p' : Char) (ps : Bool)
    (hp : p ≠ '\\') (hp' : p' ≠ '\\') :
    cwLoop (some p) ps v = cwLoop (some p') ps v := by
  cases v with
  | nil => rfl
  | cons c rest =>
    simp only [cwLoop]
    by_cases hc : c = '\\'
    · simp [hc, hp, hp']
    · by_cases hs : goIsSpace c
      · by_cases hps : ps
        · simp [hc, hs, hps, hp, hp']
        · simp [hc, hs, hps]
      · simp [hc, hs]

/-- Running the loop over a block of plain characters emits them verbatim and
leaves the state at (last plain character, no pending whitespace). -/
theorem cwLoop_plain_run : ∀ (u : Str) (a : Char) (t : Str) (prev : Option Char) (ps : Bool),
    (∀ c ∈ u ++ [a], plainChar c) →
    cwLoop prev ps (u ++ a :: t) = (cwLoop (some a) false t).map ((u ++ [a]) ++ ·) := by
  intro u
  induction u with
  | nil =>
    intro a t prev ps h
    have ha : plainChar a := h a (by simp)
    simp only [List.nil_append]
    simp only [cwLoop]
    simp only [if_neg (plainChar_ne_bs ha), if_neg (plainChar_not_space ha)]
    rfl
  | cons b u' ih =>
    intro a t prev ps h
    have hb : plainChar b := h b (by simp)
    simp only [List.cons_append]
    simp only [cwLoop]
    simp only [if_neg (plainChar_ne_bs hb), if_neg (plainChar_not_space hb)]
    rw [ih a t (some b) false (fun c hc => h c (by simp [hc]))]
    rw [Outcome.map_map]

/-- Inside a whitespace run with the pending-whitespace flag set, further
whitespace characters (none preceded by a backslash) emit nothing. -/
theorem cwLoop_ws_tail : ∀ (ws : Str) (w : Char) (t : Str),
    goIsSpace w → (∀ c ∈ ws, goIsSpace c) →
    cwLoop (some w) true (ws ++ t) = cwLoop (some (ws.getLastD w)) true t := by
  intro ws
  induction ws with
  | nil => intro w t _ _; rfl
  | cons c ws' ih =>
    intro w t hw hws
    have hc : goIsSpace c := hws c (by simp)
    simp only [List.cons_append]
    simp only [cwLoop]
    simp only [if_neg (ws_ne_backslash hc), if_pos hc]
    rw [if_neg (ws_ne_backslash hw)]
    rw [ih c t hc (fun x hx => hws x (by simp [hx]))]
    simp only [List.getLastD, if_true]
    congr 2
    cases ws' with
    | nil => simp
    | cons d r => exact (List.getLast_cons (List.cons_ne_nil d r)).symm

theorem getLastD_ws : ∀ (ws : Str) (w : Char), goIsSpace w = true →
    (∀ c ∈ ws, goIsSpace c = true) → goIsSpace (ws.getLastD w) = true := by
  intro ws
  induction ws with
  | nil => intro w hw _; exact hw
  | cons c ws' ih =>
    intro w _ hws
    rw [List.getLastD_cons]
    exact ih c (hws c (by simp)) (fun x hx => hws x (by simp [hx]))

/-- C6 counterexample: the line `a\<TAB>b` contains a whitespace character
(the tab) immediately preceded by a backslash; the claim says it is kept
literally, but the code collapses it to a plain space: the output is
`a b` and contains no tab at all. -/
theorem C6_collapseWhitespace_counterexample :
    collapseWhitespace (cs "a\\\tb") = .ok (cs "a b") ∧
      '\t' ∈ cs "a\\\tb" ∧ '\t' ∉ cs "a b" ∧ cs "a b" ≠ cs "a\tb" := by
  refine ⟨by decide, by decide, by decide, by decide⟩


theorem cwLoop_step_plain (prev : Option Char) (ps : Bool) (c : Char) (rest : Str)
    (hc : plainChar c = true) :
    cwLoop prev ps (c :: rest) = (cwLoop (some c) false rest).map (c :: ·) := by
  simp only [cwLoop]
  rw [if_neg (plainChar_ne_bs hc), if_neg (plainChar_not_space hc)]

theorem cwLoop_step_ws_false (prev : Option Char) (c : Char) (rest : Str)
    (hs : goIsSpace c = true) :
    cwLoop prev false (c :: rest) =
      if rest = [] ∧ c.utf8Size = 1 then cwLoop (some c) true rest
      else (cwLoop (some c) true rest).map (' ' :: ·) := by
  simp only [cwLoop]
  rw [if_neg (ws_ne_backslash hs), if_pos hs]
  simp

theorem cwLoop_step_ws_true (p : Char) (c : Char) (rest : Str)
    (hs : goIsSpace c = true) :
    cwLoop (some p) true (c :: rest) =
      if p = '\\' then (cwLoop (some c) true rest).map (c :: ·)
      else cwLoop (some c) true rest := by
  simp only [cwLoop]
  rw [if_neg (ws_ne_backslash hs), if_pos hs]
  simp

theorem cwLoop_step_bs (p : Char) (ps : Bool) (rest : Str) :
    cwLoop (some p) ps ('\\' :: rest) =
      if p = '\\' then (cwLoop (some '\\') ps rest).map ('\\' :: ·)
      else cwLoop (some '\\') ps rest := by
  simp only [cwLoop]
  simp

/-- C6 amended: runs of unescaped whitespace followed by further input
collapse to a single space (replacing the run by one space gives the same
output); a whitespace character immediately preceded by a backslash is kept
literally, in addition to the separator, only when the backslash itself
follows whitespace (mid-run); when the backslash follows a non-whitespace
character, the escaped whitespace character is collapsed to a single plain
space exactly like an unescaped run (the escape is lost); a backslash
immediately preceded by a backslash is emitted as one literal backslash;
and `key  a<TAB>b` normalizes to `key a b`. -/
theorem C6_collapseWhitespace_amended
    (u ws v : Str) (a w b : Char)
    (hua : ∀ c ∈ u ++ [a], plainChar c = true)
    (hw : goIsSpace w = true)
    (hws : ∀ c ∈ ws, goIsSpace c = true)
    (hb : plainChar b = true)
    (hv : v ≠ []) :
    collapseWhitespace (u ++ a :: ((w :: ws) ++ v))
      = collapseWhitespace (u ++ a :: (' ' :: v)) ∧
    collapseWhitespace (u ++ a :: ('\\' :: w :: v))
      = collapseWhitespace (u ++ a :: (' ' :: v)) ∧
    collapseWhitespace (u ++ a :: [' ', '\\', w])
      = .ok ((u ++ [a]) ++ [' ', w]) ∧
    collapseWhitespace (u ++ a :: ['\\', '\\', b])
      = .ok ((u ++ [a]) ++ ['\\', b]) ∧
    collapseWhitespace (cs "key  a\tb") = .ok (cs "key a b") := by
  have ha : plainChar a = true := hua a (by simp)
  have hane : a ≠ '\\' := plainChar_ne_bs ha
  have happ : ws ++ v ≠ [] := by
    intro h
    rcases List.append_eq_nil.mp h with ⟨-, h2⟩
    exact hv h2
  have hR : cwLoop (some a) false (' ' :: v)
      = (cwLoop (some ' ') true v).map (' ' :: ·) := by
    rw [cwLoop_step_ws_false _ _ _ (by decide), if_neg (by simp [hv])]
  refine ⟨?_, ?_, ?_, ?_, by decide⟩
  · unfold collapseWhitespace
    rw [cwLoop_plain_run u a _ none false hua,
        cwLoop_plain_run u a _ none false hua]
    congr 1
    have hL : cwLoop (some a) false ((w :: ws) ++ v)
        = (cwLoop (some (ws.getLastD w)) true v).map (' ' :: ·) := by
      rw [List.cons_append, cwLoop_step_ws_false _ _ _ hw, if_neg (by simp [happ]),
          cwLoop_ws_tail ws w v hw hws]
    rw [hL, hR,
        cwLoop_prev_irrel v (ws.getLastD w) ' ' true
          (ws_ne_backslash (getLastD_ws ws w hw hws)) (by decide)]
  · unfold collapseWhitespace
    rw [cwLoop_plain_run u a _ none false hua,
        cwLoop_plain_run u a _ none false hua]
    congr 1
    have hL : cwLoop (some a) false ('\\' :: w :: v)
        = (cwLoop (some w) true v).map (' ' :: ·) := by
      rw [cwLoop_step_bs, if_neg hane,
          cwLoop_step_ws_false _ _ _ hw, if_neg (by simp [hv])]
    rw [hL, hR,
        cwLoop_prev_irrel v w ' ' true (ws_ne_backslash hw) (by decide)]
  · unfold collapseWhitespace
    rw [cwLoop_plain_run u a _ none false hua]
    have hstep : cwLoop (some a) false [' ', '\\', w] = .ok [' ', w] := by
      rw [cwLoop_step_ws_false _ _ _ (by decide), if_neg (by simp),
          cwLoop_step_bs, if_neg (by decide : ¬(' ' = '\\')),
          cwLoop_step_ws_true _ _ _ hw, if_pos rfl]
      rfl
    rw [hstep]
    rfl
  · unfold collapseWhitespace
    rw [cwLoop_plain_run u a _ none false hua]
    have hstep : cwLoop (some a) false ['\\', '\\', b] = .ok ['\\', b] := by
      rw [cwLoop_step_bs, if_neg hane,
          cwLoop_step_bs, if_pos rfl,
          cwLoop_step_plain _ _ _ _ hb]
      rfl
    rw [hstep]
    rfl

theorem C6_collapseWhitespace_amended_witness :
    collapseWhitespace (cs "ke" ++ 'y' :: ((' ' :: ['\t']) ++ cs "x"))
      = collapseWhitespace (cs "ke" ++ 'y' :: (' ' :: cs "x")) ∧
    collapseWhitespace (cs "ke" ++ 'y' :: ('\\' :: ' ' :: cs "x"))
      = collapseWhitespace (cs "ke" ++ 'y' :: (' ' :: cs "x")) ∧
    collapseWhitespace (cs "ke" ++ 'y' :: [' ', '\\', ' '])
      = .ok ((cs "ke" ++ ['y']) ++ [' ', ' ']) ∧
    collapseWhitespace (cs "ke" ++ 'y' :: ['\\', '\\', 'z'])
      = .ok ((cs "ke" ++ ['y']) ++ ['\\', 'z']) ∧
    collapseWhitespace (cs "key  a\tb") = .ok (cs "key a b") :=
  C6_collapseWhitespace_amended (cs "ke") ['\t'] (cs "x") 'y' ' ' 'z'
    (by decide) (by decide) (by decide) (by decide) (by decide)

/-! ## Line normalization (`readFile`, sconfig.go lines 91-133) -/

/-- One logical line: origin line number (the source stores it as a decimal
string via `fmt.Sprintf("%d", no)`; it is kept as the number here and
rendered with `Nat.repr` where the text matters) and normalized text. -/
structure LLine where
  no : Nat
  text : Str
deriving DecidableEq, Repr

/-- Go `len(line) > 0 && unicode.IsSpace(rune(line[0]))`: `line[0]` is the
first *byte*, so only single-byte (ASCII) whitespace makes a line count as
indented; multi-byte whitespace code points have a lead byte whose rune
value is not whitespace. -/
def goIsIndented (line : Str) : Bool :=
  match line with
  | [] => false
  | c :: _ => c = ' ' ∨ c = '\t' ∨ c = '\n' ∨ c.val = 11 ∨ c.val = 12 ∨ c = '\r'

/-- A file system: file name → physical lines (the result of `bufio.Scanner`
line splitting). -/
abbrev FS := List (Str × List Str)

def FS.find : FS → Str → Option (List Str)
  | [], _ => none
  | (n, ls) :: rest, f => if n = f then some ls else FS.find rest f

/-- The blank/comment filter of `readFile`: `line == "" || line[0] == '#'`
applied to the trimmed line. -/
def keepLine (pl : Str) : Bool :=
  !(goTrimSpace pl = [] ∨ (goTrimSpace pl).headI = '#')

/-- The composition `collapseWhitespace(removeComments(line))` applied to
the trimmed line. -/
def procLine (pl : Str) : Outcome Str :=
  (removeComments (goTrimSpace pl)).bind collapseWhitespace

/-- The scanner loop of `readFile`.  `rf` is the recursive call used by the
`source` directive, `no` the physical line counter, `acc` the `lines` slice
and `i` the count of non-indented constructs, exactly as in the source.  An
indented line appends to `lines[i-1]`; `i-1` out of range is the Go runtime
panic. -/
def readFileLoop (rf : Str → Outcome (List LLine)) :
    List Str → Nat → List LLine → Nat → Outcome (List LLine)
  | [], _, acc, _ => .ok acc
  | pl :: rest, no, acc, i =>
    if keepLine pl = false then readFileLoop rf rest (no + 1) acc i
    else
      match procLine pl with
      | .err e => .err e
      | .panicked m => .panicked m
      | .ok line =>
        if goIsIndented pl then
          if i = 0 then .err (cs "first line can't be indented")
          else if h : i - 1 < acc.length then
            readFileLoop rf rest (no + 1)
              (acc.set (i - 1)
                { no := (acc.get ⟨i - 1, h⟩).no,
                  text := (acc.get ⟨i - 1, h⟩).text ++ ' ' :: line }) i
          else .panicked (cs "runtime error: index out of range")
        else
          if (cs "source ").isPrefixOf line then
            match rf (line.drop 7) with
            | .err e => .err e
            | .panicked m => .panicked m
            | .ok sourced => readFileLoop rf rest (no + 1) (acc ++ sourced) (i + 1)
          else readFileLoop rf rest (no + 1) (acc ++ [⟨no + 1, line⟩]) (i + 1)

/-- Go `readFile`, with fuel bounding the `source` recursion depth. -/
def readFile : Nat → FS → Str → Outcome (List LLine)
  | 0, _, _ => .panicked (cs "model: out of fuel")
  | fuel + 1, fs, file =>
    match fs.find file with
    | none => .err (cs "open " ++ file ++ cs ": no such file or directory")
    | some phys => readFileLoop (readFile fuel fs) phys 0 [] 0

/-- The file system of the C4 counterexample: file `a` sources file `b`
(two lines) and then has an indented line. -/
def fsC4 : FS :=
  [(cs "a", [cs "x 1", cs "source b", cs " ind"]),
   (cs "b", [cs "p 1", cs "q 2"])]

/-- C4 counterexample: in file `a` the indented line ` ind` follows the
`source b` directive which spliced two lines, `p 1` (output index 1) and
`q 2` (output index 2).  The immediately preceding retained logical line is
`q 2`, but the code appends to `lines[i-1] = lines[1]`, i.e. to `p 1`, the
*first* spliced line. -/
theorem C4_readFile_counterexample :
    readFile 9 fsC4 (cs "a")
      = .ok [⟨1, cs "x 1"⟩, ⟨1, cs "p 1 ind"⟩, ⟨2, cs "q 2"⟩] ∧
    readFile 9 fsC4 (cs "a")
      ≠ .ok [⟨1, cs "x 1"⟩, ⟨1, cs "p 1"⟩, ⟨2, cs "q 2 ind"⟩] := by
  refine ⟨by decide, by decide⟩

/-- Modelled from the claim (amended form): line normalization in which an
indented line's processed text is appended, with one separator space, to the
*last* retained logical line, and indentation before any retained line is
the "first line can't be indented" error. -/
def readFileSimple : List Str → Nat → List LLine → Outcome (List LLine)
  | [], _, acc => .ok acc
  | pl :: rest, no, acc =>
    if keepLine pl = false then readFileSimple rest (no + 1) acc
    else
      match procLine pl with
      | .err e => .err e
      | .panicked m => .panicked m
      | .ok line =>
        if goIsIndented pl then
          match acc.getLast? with
          | none => .err (cs "first line can't be indented")
          | some last =>
            readFileSimple rest (no + 1)
              (acc.dropLast ++ [⟨last.no, last.text ++ ' ' :: line⟩])
        else readFileSimple rest (no + 1) (acc ++ [⟨no + 1, line⟩])

/-- A physical line whose processed text is not a `source` directive. -/
def noSourceLine (pl : Str) : Bool :=
  match procLine pl with
  | .ok p => !((cs "source ").isPrefixOf p)
  | _ => true

theorem set_last_eq_dropLast_concat {α : Type} :
    ∀ (l : List α) (x : α), l ≠ [] → l.set (l.length - 1) x = l.dropLast ++ [x] := by
  intro l
  induction l with
  | nil => intro x h; exact absurd rfl h
  | cons a t ih =>
    intro x _
    cases t with
    | nil => rfl
    | cons b t' =>
      have : (a :: b :: t').length - 1 = ((b :: t').length - 1) + 1 := by
        simp
      rw [this, List.set_cons_succ, ih x (by simp)]
      rfl

theorem getLast?_eq_get {α : Type} (l : List α) (h : l ≠ []) :
    ∀ (hl : l.length - 1 < l.length), l.getLast? = some (l.get ⟨l.length - 1, hl⟩) := by
  intro hl
  rw [List.getLast?_eq_getElem?, List.getElem?_eq_getElem hl]
  rfl

/-- On a suffix of physical lines containing no `source` directive, the loop
run with `i` equal to the number of already-retained lines behaves exactly
like the append-to-last normalizer. -/
theorem readFileLoop_no_source (rf : Str → Outcome (List LLine)) :
    ∀ (phys : List Str) (no : Nat) (acc : List LLine),
    (∀ pl ∈ phys, noSourceLine pl = true) →
    readFileLoop rf phys no acc acc.length = readFileSimple phys no acc := by
  intro phys
  induction phys with
  | nil => intro no acc _; rfl
  | cons pl rest ih =>
    intro no acc hns
    have hnsrest : ∀ p ∈ rest, noSourceLine p = true := fun p hp => hns p (by simp [hp])
    by_cases hk : keepLine pl = false
    · simp only [readFileLoop, readFileSimple, hk, if_pos rfl]
      exact ih (no + 1) acc hnsrest
    · cases hpl : procLine pl with
      | err e =>
        simp only [readFileLoop, readFileSimple, hpl]
        rw [if_neg (show ¬ keepLine pl = false from by simp [hk]),
            if_neg (show ¬ keepLine pl = false from by simp [hk])]
      | panicked m =>
        simp only [readFileLoop, readFileSimple, hpl]
        rw [if_neg (show ¬ keepLine pl = false from by simp [hk]),
            if_neg (show ¬ keepLine pl = false from by simp [hk])]
      | ok line =>
        simp only [readFileLoop, readFileSimple, hpl]
        rw [if_neg (show ¬ keepLine pl = false from by simp [hk]),
            if_neg (show ¬ keepLine pl = false from by simp [hk])]
        by_cases hind : goIsIndented pl = true
        · rw [if_pos hind, if_pos hind]
          cases acc with
          | nil => rfl
          | cons l0 acc' =>
            have hne : (l0 :: acc') ≠ [] := by simp
            have hlen0 : (l0 :: acc').length ≠ 0 := by simp
            rw [if_neg hlen0]
            have hlt : (l0 :: acc').length - 1 < (l0 :: acc').length := by simp
            rw [dif_pos hlt]
            rw [getLast?_eq_get (l0 :: acc') hne hlt]
            set last := (l0 :: acc').get ⟨(l0 :: acc').length - 1, hlt⟩ with hlast
            have hset : (l0 :: acc').set ((l0 :: acc').length - 1)
                ⟨last.no, last.text ++ ' ' :: line⟩
                = (l0 :: acc').dropLast ++ [⟨last.no, last.text ++ ' ' :: line⟩] :=
              set_last_eq_dropLast_concat _ _ hne
            rw [hset]
            have hlen2 : ((l0 :: acc').dropLast
                ++ [(⟨last.no, last.text ++ ' ' :: line⟩ : LLine)]).length
                = (l0 :: acc').length := by
              simp [List.length_dropLast]
            rw [← hlen2]
            exact ih (no + 1) _ hnsrest
        · rw [if_neg hind, if_neg hind]
          have hsrc0 := hns pl (by simp)
          simp only [noSourceLine, hpl, Bool.not_eq_true'] at hsrc0
          rw [if_neg (show ¬ (cs "source ").isPrefixOf line = true from by simp [hsrc0])]
          have hlen3 : (acc ++ [(⟨no + 1, line⟩ : LLine)]).length = acc.length + 1 := by
            simp
          rw [← hlen3]
          exact ih (no + 1) _ hnsrest

/-- C4 amended: an indented surviving line is appended (one separator space)
to the retained line at index `i-1`, where `i` counts the non-indented
constructs processed so far and a `source` directive counts once however
many lines it splices.  In a file with no `source` directives that index is
always the immediately preceding retained logical line, so normalization
coincides with the append-to-last normalizer `readFileSimple` (which also
yields the "first line can't be indented" error when nothing was retained
yet); after a directive splicing two or more lines the target is an earlier
line, as the counterexample shows. -/
theorem C4_readFile_amended (fuel : Nat) (fs : FS) (file : Str) (phys : List Str)
    (hfind : fs.find file = some phys)
    (hns : ∀ pl ∈ phys, noSourceLine pl = true) :
    readFile (fuel + 1) fs file = readFileSimple phys 0 [] := by
  simp only [readFile, hfind]
  exact readFileLoop_no_source (readFile fuel fs) phys 0 [] hns

theorem C4_readFile_amended_witness :
    FS.find [(cs "f", [cs "a 1", cs " b", cs "c 2"])] (cs "f")
        = some [cs "a 1", cs " b", cs "c 2"] ∧
    readFile 2 [(cs "f", [cs "a 1", cs " b", cs "c 2"])] (cs "f")
        = readFileSimple [cs "a 1", cs " b", cs "c 2"] 0 [] ∧
    readFileSimple [cs "a 1", cs " b", cs "c 2"] 0 []
        = .ok [⟨1, cs "a 1 b"⟩, ⟨3, cs "c 2"⟩] ∧
    readFileSimple [cs " x"] 0 [] = .err (cs "first line can't be indented") :=
  ⟨by decide,
   C4_readFile_amended 1 _ _ _ (by decide) (by decide),
   by decide, by decide⟩

/-! ## Values, fields and built-in type handlers (sconfig.go lines 326-335,
373-383, 441-447, 508-522, 597-607) -/

inductive Value where
  | vStr (s : Str)
  | vBool (b : Bool)
  | vInt (n : Int)
  | vStrs (l : List Str)
  | vBools (l : List Bool)
  | vInts (l : List Int)
  | vNone
deriving DecidableEq, Repr

/-- A struct field: Go type descriptor string plus current value. -/
structure SField where
  ftype : Str
  fval : Value
deriving DecidableEq, Repr

/-- The target struct, as the name-indexed collection of settable fields that
`reflect.ValueOf(c).Elem()` exposes. -/
abbrev Struct := List (Str × SField)

def Struct.findF : Struct → Str → Option SField
  | [], _ => none
  | (n, f) :: rest, name => if n = name then some f else Struct.findF rest name

def Struct.setF : Struct → Str → Value → Struct
  | [], _, _ => []
  | (n, f) :: rest, name, v =>
    if n = name then (n, { f with fval := v }) :: rest
    else (n, f) :: Struct.setF rest name v

/-- Go `parseBool` (sconfig.go lines 326-335). -/
def parseBool (v : Str) : Outcome Bool :=
  let lv := goToLower v
  if lv = cs "1" ∨ lv = cs "true" ∨ lv = cs "yes" ∨ lv = cs "on" ∨
      lv = cs "enable" ∨ lv = cs "enabled" then .ok true
  else if lv = cs "0" ∨ lv = cs "false" ∨ lv = cs "no" ∨ lv = cs "off" ∨
      lv = cs "disable" ∨ lv = cs "disabled" then .ok false
  else .err (cs "unable to parse \"" ++ v ++ cs "\" as a boolean")

def decDigitsAux : Str → Nat → Option Nat
  | [], acc => some acc
  | c :: rest, acc =>
    if '0' ≤ c ∧ c ≤ '9' then decDigitsAux rest (acc * 10 + (c.toNat - 48))
    else none

/-- Go `strconv.ParseInt(s, 10, 64)`: optional sign, decimal digits, 64-bit
range check; the error strings are the ones `strconv` produces. -/
def parseInt64 (s : Str) : Outcome Int :=
  match s with
  | [] => .err (cs "strconv.ParseInt: parsing \"" ++ s ++ cs "\": invalid syntax")
  | c :: rest =>
    let neg : Bool := c = '-'
    let digits := if c = '-' ∨ c = '+' then rest else s
    match digits, decDigitsAux digits 0 with
    | [], _ => .err (cs "strconv.ParseInt: parsing \"" ++ s ++ cs "\": invalid syntax")
    | _, none => .err (cs "strconv.ParseInt: parsing \"" ++ s ++ cs "\": invalid syntax")
    | _, some n =>
      let val : Int := if neg then -(n : Int) else (n : Int)
      if val < -(2 ^ 63) ∨ (2 ^ 63 - 1 : Int) < val then
        .err (cs "strconv.ParseInt: parsing \"" ++ s ++ cs "\": value out of range")
      else .ok val

abbrev TypeHandler := List Str → Outcome Value

/-- Go `handleString`: `strings.Join(v, " ")`. -/
def handleString : TypeHandler := fun v => .ok (.vStr (joinSp v))

/-- Go `handleBool`: `parseBool(v[0])`; `v[0]` on an empty slice is a
run-time index-out-of-range panic. -/
def handleBool : TypeHandler
  | [] => .panicked (cs "runtime error: index out of range")
  | t :: _ =>
    match parseBool t with
    | .ok b => .ok (.vBool b)
    | .err e => .err e
    | .panicked m => .panicked m

/-- Go `handleInt64`: `strconv.ParseInt(v[0], 10, 64)`; `v[0]` on an empty
slice is a run-time index-out-of-range panic. -/
def handleInt64 : TypeHandler
  | [] => .panicked (cs "runtime error: index out of range")
  | t :: _ =>
    match parseInt64 t with
    | .ok n => .ok (.vInt n)
    | .err e => .err e
    | .panicked m => .panicked m

/-- Go `handleStringSlice`: returns the tokens as-is. -/
def handleStringSlice : TypeHandler := fun v => .ok (.vStrs v)

def handleBoolSliceAux : List Str → List Bool → Outcome Value
  | [], acc => .ok (.vBools acc.reverse)
  | t :: rest, acc =>
    match parseBool t with
    | .ok b => handleBoolSliceAux rest (b :: acc)
    | .err e => .err e
    | .panicked m => .panicked m

/-- Go `handleBoolSlice`: parse each token, first failure aborts. -/
def handleBoolSlice : TypeHandler := fun v => handleBoolSliceAux v []

def handleInt64SliceAux : List Str → List Int → Outcome Value
  | [], acc => .ok (.vInts acc.reverse)
  | t :: rest, acc =>
    match parseInt64 t with
    | .ok n => handleInt64SliceAux rest (n :: acc)
    | .err e => .err e
    | .panicked m => .panicked m

/-- Go `handleInt64Slice`. -/
def handleInt64Slice : TypeHandler := fun v => handleInt64SliceAux v []

abbrev Registry := List (Str × TypeHandler)

def Registry.findH : Registry → Str → Option TypeHandler
  | [], _ => none
  | (n, h) :: rest, name => if n = name then some h else Registry.findH rest name

/-- The subset of `defaultTypeHandlers` used by the claims.  The float
handlers (floating point is outside this embedding) and the remaining
integer widths (identical to `int64` up to the range bound) are omitted;
no theorem below quantifies over them. -/
def defaultTypeHandlersM : Registry :=
  [(cs "string", handleString), (cs "bool", handleBool), (cs "int64", handleInt64),
   (cs "[]string", handleStringSlice), (cs "[]bool", handleBoolSlice),
   (cs "[]int64", handleInt64Slice)]

/-! ## Field-name resolution (`fieldNameFromKey`, sconfig.go lines 265-292) -/

def goUpperChar (c : Char) : Char :=
  if 'a' ≤ c ∧ c ≤ 'z' then Char.ofNat (c.toNat - 32) else c

def goToUpper (s : Str) : Str := s.map goUpperChar

/-- Go `strings.Replace(s, old, new, -1)` (all occurrences, left to right,
non-overlapping), with fuel; each step consumes at least one character of
`s` when `old` is non-empty, so `s.length + 1` fuel suffices. -/
def raF (old new : Str) : Nat → Str → Str
  | 0, s => s
  | _ + 1, [] => []
  | f + 1, c :: rest =>
    if old ≠ [] ∧ old.isPrefixOf (c :: rest) then
      new ++ raF old new f ((c :: rest).drop old.length)
    else c :: raF old new f rest

def replaceAll (s old new : Str) : Str := raF old new (s.length + 1) s

/-- The acronym list of `fieldNameFromKey` ("This list is from golint"). -/
def acronyms : List Str :=
  [cs "Api", cs "Ascii", cs "Cpu", cs "Css", cs "Dns", cs "Eof", cs "Guid",
   cs "Html", cs "Https", cs "Http", cs "Id", cs "Ip", cs "Json", cs "Lhs",
   cs "Qps", cs "Ram", cs "Rhs", cs "Rpc", cs "Sla", cs "Smtp", cs "Sql",
   cs "Ssh", cs "Tcp", cs "Tls", cs "Ttl", cs "Udp", cs "Ui", cs "Uid",
   cs "Uuid", cs "Uri", cs "Url", cs "Utf8", cs "Vm", cs "Xml", cs "Xsrf",
   cs "Xss"]

def splitDelim : Str → List Str
  | [] => [[]]
  | c :: rest =>
    let r := splitDelim rest
    if c = '-' ∨ c = '_' then [] :: r
    else (c :: r.headI) :: r.tail

def capFirst : Str → Str
  | [] => []
  | c :: rest => goUpperChar c :: rest

/-- Modelled from the spec: `inflect.Camelize` is an external dependency,
not code of this repository.  §4.2 describes the transform as taking the key
"from its delimiter-separated external spelling (e.g. hyphen-case) into the
record's internal identifier casing convention": split on `-`/`_`,
capitalize each fragment, concatenate (`base-url` → `BaseUrl`,
`not` → `Not`). -/
def camelize (key : Str) : Str := ((splitDelim key).map capFirst).flatten

/-- Modelled from the spec: `inflect.Pluralize` is an external dependency,
not code of this repository.  §4.2 calls it "its plural form"; modelled as
the regular English plural, appending `s` (`Not` → `Nots`, `Host` →
`Hosts`). -/
def pluralize (fn : Str) : Str := fn ++ cs "s"

/-- The canonical field name tried first: camelized key with the acronym
replacements applied in order. -/
def canonName (key : Str) : Str :=
  acronyms.foldl (fun fn a => replaceAll fn a (goToUpper a)) (camelize key)

/-- Go `fieldNameFromKey` (sconfig.go lines 265-292). -/
def fieldNameFromKey (key : Str) (st : Struct) : Outcome Str :=
  let fieldName := canonName key
  match st.findF fieldName with
  | some _ => .ok fieldName
  | none =>
    let fieldNamePlural := pluralize fieldName
    match st.findF fieldNamePlural with
    | some _ => .ok fieldNamePlural
    | none =>
      .err (cs "unknown option (field " ++ fieldName ++ cs " or "
        ++ fieldNamePlural ++ cs " is missing)")

/-! ## Dispatch and the Parse loop (sconfig.go lines 215-324) -/

/-- A caller-supplied per-field callback (`Handler`): receives the values
and returns an error or nil.  Its side effects on caller state are outside
the model. -/
abbrev HandlerF := List Str → Option Str

abbrev Handlers := List (Str × HandlerF)

def Handlers.findH : Handlers → Str → Option HandlerF
  | [], _ => none
  | (n, h) :: rest, name => if n = name then some h else Handlers.findH rest name

/-- Go `setFromHandler` (sconfig.go lines 294-310): returns whether a
callback existed and the `"%v (from handler)"`-wrapped error if it failed. -/
def setFromHandler (fieldName : Str) (values : List Str) (handlers : Handlers) :
    Bool × Option Str :=
  match handlers.findH fieldName with
  | none => (false, none)
  | some handler =>
    match handler values with
    | none => (true, none)
    | some e => (true, some (e ++ cs " (from handler)"))

/-- Go `setFromTypeHandler` (sconfig.go lines 312-324): look up the field's
exact type descriptor; `none` when no handler is registered, otherwise the
handler's outcome (the caller stores the returned value with `field.Set`,
replacing the previous value). -/
def setFromTypeHandler (reg : Registry) (ftype : Str) (value : List Str) :
    Option (Outcome Value) :=
  match reg.findH ftype with
  | none => none
  | some handler => some (handler value)

/-- Go `fmterr` (sconfig.go lines 260-263). -/
def fmterr (file : Str) (no : Nat) (key : Str) (cause : Str) : Str :=
  file ++ cs " line " ++ (Nat.repr no).toList ++ cs ": error parsing "
    ++ key ++ cs ": " ++ cause

inductive StepRes where
  | ok (st : Struct)
  | fail (cause : Str)
  | panicked (m : Str)
deriving DecidableEq, Repr

/-- The body of `Parse`'s per-line loop (sconfig.go lines 224-255): split
the text on spaces, resolve the field from the first token, then dispatch:
caller callback first, registry type handler second, otherwise the
unknown-type failure. -/
def stepLine (reg : Registry) (handlers : Handlers) (text : Str) (st : Struct) :
    StepRes :=
  let v := splitSp text
  match fieldNameFromKey v.headI st with
  | .err e => .fail e
  | .panicked m => .panicked m
  | .ok fieldName =>
    match setFromHandler fieldName v.tail handlers with
    | (true, some e) => .fail e
    | (true, none) => .ok st
    | (false, _) =>
      let fld := (st.findF fieldName).getD ⟨[], .vNone⟩
      match setFromTypeHandler reg fld.ftype v.tail with
      | some (.ok val) => .ok (st.setF fieldName val)
      | some (.err e) => .fail e
      | some (.panicked m) => .panicked m
      | none => .fail (cs "don't know how to set fields of the type " ++ fld.ftype)

inductive ParseOut where
  | ret (st : Struct) (err : Option Str)
  | panicked (m : Str)
deriving DecidableEq, Repr

/-- The loop of `Parse`: process lines in order; the first failure is
wrapped with `fmterr` and returned at once, keeping the mutations of the
earlier lines. -/
def parseLines (reg : Registry) (handlers : Handlers) (file : Str) :
    List LLine → Struct → ParseOut
  | [], st => .ret st none
  | l :: rest, st =>
    match stepLine reg handlers l.text st with
    | .ok st' => parseLines reg handlers file rest st'
    | .fail cause => .ret st (some (fmterr file l.no (splitSp l.text).headI cause))
    | .panicked m => .panicked m

/-- Go `Parse` (sconfig.go lines 215-258): normalize the file, then run the
per-line loop; a `readFile` error is returned unwrapped with the target
untouched. -/
def Parse (fuel : Nat) (reg : Registry) (c : Struct) (file : Str)
    (handlers : Handlers) (fs : FS) : ParseOut :=
  match readFile fuel fs file with
  | .err e => .ret c (some e)
  | .panicked m => .panicked m
  | .ok lines => parseLines reg handlers file lines c

/-! ## The later-revision dispatcher (spec §4.4, §9) and validators
(spec §4.3) -/

/-- Modelled from the spec: the later-revision dispatcher's slice handling
(§4.4 "repeated logical lines targeting the same slice field accumulate by
the dispatcher appending results from successive calls", adopted by §9);
the source file of that revision is not in the snapshot (only its tests
are).  A slice result is appended to the field's current contents; a
scalar result replaces it. -/
def appendOrReplace : Value → Value → Value
  | .vStrs old, .vStrs new => .vStrs (old ++ new)
  | .vBools old, .vBools new => .vBools (old ++ new)
  | .vInts old, .vInts new => .vInts (old ++ new)
  | _, new => new

/-- Modelled from the spec: `stepLine` with the later revision's
append-for-slices store (§4.4/§9); dispatch order and errors are unchanged. -/
def stepLineA (reg : Registry) (handlers : Handlers) (text : Str) (st : Struct) :
    StepRes :=
  let v := splitSp text
  match fieldNameFromKey v.headI st with
  | .err e => .fail e
  | .panicked m => .panicked m
  | .ok fieldName =>
    match setFromHandler fieldName v.tail handlers with
    | (true, some e) => .fail e
    | (true, none) => .ok st
    | (false, _) =>
      let fld := (st.findF fieldName).getD ⟨[], .vNone⟩
      match setFromTypeHandler reg fld.ftype v.tail with
      | some (.ok val) => .ok (st.setF fieldName (appendOrReplace fld.fval val))
      | some (.err e) => .fail e
      | some (.panicked m) => .panicked m
      | none => .fail (cs "don't know how to set fields of the type " ++ fld.ftype)

/-- The `Parse` loop over the later-revision dispatcher. -/
def parseLinesA (reg : Registry) (handlers : Handlers) (file : Str) :
    List LLine → Struct → ParseOut
  | [], st => .ret st none
  | l :: rest, st =>
    match stepLineA reg handlers l.text st with
    | .ok st' => parseLinesA reg handlers file rest st'
    | .fail cause => .ret st (some (fmterr file l.no (splitSp l.text).headI cause))
    | .panicked m => .panicked m

/-- Modelled from the spec: `validate.go` is not in the snapshot (only
`validate_test.go` is).  §4.3: `validateValueLimit(min, max)` fails if the
count is below `min` with a "must have more than N values" message, or
above `max` with a "must have fewer than N values" message; a `max` of 0 or
less than `min` means unbounded above.  The test file fixes the message
format as the bound followed by the actual count. -/
def ValidateValueLimit (mn mx : Nat) : List Str → Outcome (List Str) :=
  fun v =>
    if v.length < mn then
      .err (cs "must have more than " ++ (Nat.repr mn).toList
        ++ cs " values (has: " ++ (Nat.repr v.length).toList ++ cs ")")
    else if 0 < mx ∧ mn ≤ mx ∧ mx < v.length then
      .err (cs "must have fewer than " ++ (Nat.repr mx).toList
        ++ cs " values (has: " ++ (Nat.repr v.length).toList ++ cs ")")
    else .ok v

/-! ## Struct lemmas -/

theorem findF_setF : ∀ (st : Struct) (n m : Str) (v : Value),
    (st.setF n v).findF m =
      if m = n then (st.findF m).map (fun f => { f with fval := v })
      else st.findF m := by
  intro st
  induction st with
  | nil => intro n m v; simp [Struct.setF, Struct.findF]
  | cons e rest ih =>
    intro n m v
    obtain ⟨n0, f0⟩ := e
    by_cases h0n : n0 = n <;> by_cases h0m : n0 = m
    · subst h0n; subst h0m
      simp [Struct.setF, Struct.findF]
    · subst h0n
      have hmn : ¬ m = n0 := fun h => h0m h.symm
      simp [Struct.setF, Struct.findF, h0m, hmn]
    · subst h0m
      simp [Struct.setF, Struct.findF, h0n]
    · have hmn0 : ¬ m = n0 := fun h => h0m h.symm
      simp [Struct.setF, Struct.findF, h0n, h0m, ih]

theorem setF_self : ∀ (st : Struct) (n : Str) (f : SField),
    st.findF n = some f → st.setF n f.fval = st := by
  intro st
  induction st with
  | nil => intro n f h; simp [Struct.findF] at h
  | cons e rest ih =>
    intro n f h
    obtain ⟨n0, f0⟩ := e
    by_cases h0 : n0 = n
    · subst h0
      simp [Struct.findF] at h
      subst h
      simp [Struct.setF]
    · simp only [Struct.findF, if_neg h0] at h
      simp only [Struct.setF, if_neg h0]
      rw [ih n f h]

theorem setF_setF : ∀ (st : Struct) (n : Str) (v w : Value),
    (st.setF n v).setF n w = st.setF n w := by
  intro st
  induction st with
  | nil => intro n v w; rfl
  | cons e rest ih =>
    intro n v w
    obtain ⟨n0, f0⟩ := e
    by_cases h0 : n0 = n
    · subst h0
      simp [Struct.setF]
    · simp only [Struct.setF, if_neg h0]
      rw [ih]

theorem fieldNameFromKey_setF (key : Str) (st : Struct) (n : Str) (v : Value) :
    fieldNameFromKey key (st.setF n v) = fieldNameFromKey key st := by
  simp only [fieldNameFromKey, findF_setF]
  by_cases h1 : canonName key = n
  · rw [if_pos h1]
    cases st.findF (canonName key) with
    | some f => rfl
    | none =>
      simp only [Option.map_none']
      by_cases h2 : pluralize (canonName key) = n
      · rw [if_pos h2]
        cases st.findF (pluralize (canonName key)) <;> rfl
      · rw [if_neg h2]
  · rw [if_neg h1]
    cases st.findF (canonName key) with
    | some f => rfl
    | none =>
      by_cases h2 : pluralize (canonName key) = n
      · rw [if_pos h2]
        cases st.findF (pluralize (canonName key)) <;> rfl
      · rw [if_neg h2]

/-! ## The Parse loop: first-failure semantics -/

theorem parseLines_append (reg : Registry) (hmap : Handlers) (file : Str) :
    ∀ (pre : List LLine) (st st' : Struct),
    parseLines reg hmap file pre st = .ret st' none →
    ∀ (rest : List LLine),
    parseLines reg hmap file (pre ++ rest) st = parseLines reg hmap file rest st' := by
  intro pre
  induction pre with
  | nil =>
    intro st st' h rest
    simp only [parseLines] at h
    injection h with h1 h2
    subst h1
    rw [List.nil_append]
  | cons l pre' ih =>
    intro st st' h rest
    rw [List.cons_append]
    simp only [parseLines] at h ⊢
    cases hs : stepLine reg hmap l.text st with
    | ok st1 =>
      rw [hs] at h
      exact ih st1 st' h rest
    | fail c =>
      rw [hs] at h
      injection h with h1 h2
      cases h2
    | panicked m =>
      rw [hs] at h
      cases h

/-- C2: when a logical line fails (resolution, handler, type handler or
unknown type all surface as a `.fail` of the loop body), `Parse`'s loop
returns at once with exactly the one error
`"<path> line <N>: error parsing <key>: <cause>"` — `N` the line's origin
number, `key` its first token — while the target keeps every mutation made
by the earlier, successful lines (`st'`), and the lines after the failing
one (`post`) are never processed (the result does not depend on them). -/
theorem C2_first_failure (reg : Registry) (hmap : Handlers) (file : Str)
    (pre post : List LLine) (l : LLine) (st st' : Struct) (cause : Str)
    (hpre : parseLines reg hmap file pre st = .ret st' none)
    (hfail : stepLine reg hmap l.text st' = .fail cause) :
    parseLines reg hmap file (pre ++ l :: post) st
      = .ret st' (some (fmterr file l.no (splitSp l.text).headI cause)) := by
  rw [parseLines_append reg hmap file pre st st' hpre (l :: post)]
  simp only [parseLines, hfail]

/-- A sample target struct with a string field `Str` and a bool field
`Bool` (as in the repository's own tests). -/
def stSample : Struct :=
  [(cs "Str", ⟨cs "string", .vStr []⟩), (cs "Bool", ⟨cs "bool", .vBool false⟩)]

theorem C2_first_failure_witness :
    parseLines defaultTypeHandlersM [] (cs "f") [⟨1, cs "str foo"⟩] stSample
      = .ret (stSample.setF (cs "Str") (.vStr (cs "foo"))) none ∧
    stepLine defaultTypeHandlersM [] (cs "bool nope")
        (stSample.setF (cs "Str") (.vStr (cs "foo")))
      = .fail (cs "unable to parse \"nope\" as a boolean") ∧
    parseLines defaultTypeHandlersM [] (cs "f")
        ([⟨1, cs "str foo"⟩] ++ ⟨2, cs "bool nope"⟩ :: [⟨3, cs "str later"⟩]) stSample
      = .ret (stSample.setF (cs "Str") (.vStr (cs "foo")))
          (some (cs "f line 2: error parsing bool: unable to parse \"nope\" as a boolean")) :=
  ⟨by decide, by decide,
   (C2_first_failure defaultTypeHandlersM [] (cs "f") [⟨1, cs "str foo"⟩]
      [⟨3, cs "str later"⟩] ⟨2, cs "bool nope"⟩ stSample
      (stSample.setF (cs "Str") (.vStr (cs "foo")))
      (cs "unable to parse \"nope\" as a boolean")
      (by decide) (by decide)).trans (by decide)⟩

/-- C3: dispatch priority for one logical line whose key resolves to
`fieldName`: (0) when the caller's handler map has an entry, the registry is
never consulted (the result is independent of it); (1) only that callback
runs, and its error is returned with the suffix `" (from handler)"`;
(2) otherwise a registry handler registered for the field's exact type
descriptor runs, its error propagating verbatim; (3) with neither, the line
fails with `"don't know how to set fields of the type <T>"`. -/
theorem C3_dispatch_priority (reg : Registry) (hmap : Handlers) (text : Str)
    (st : Struct) (fieldName : Str)
    (hres : fieldNameFromKey (splitSp text).headI st = .ok fieldName) :
    (∀ h : HandlerF, hmap.findH fieldName = some h → ∀ reg' : Registry,
      stepLine reg hmap text st = stepLine reg' hmap text st) ∧
    (∀ h : HandlerF, hmap.findH fieldName = some h →
      stepLine reg hmap text st =
        match h (splitSp text).tail with
        | none => .ok st
        | some e => .fail (e ++ cs " (from handler)")) ∧
    (∀ fld : SField, hmap.findH fieldName = none →
      st.findF fieldName = some fld →
      ∀ th : TypeHandler, reg.findH fld.ftype = some th →
      stepLine reg hmap text st =
        match th (splitSp text).tail with
        | .ok val => .ok (st.setF fieldName val)
        | .err e => .fail e
        | .panicked m => .panicked m) ∧
    (∀ fld : SField, hmap.findH fieldName = none →
      st.findF fieldName = some fld →
      reg.findH fld.ftype = none →
      stepLine reg hmap text st
        = .fail (cs "don't know how to set fields of the type " ++ fld.ftype)) := by
  refine ⟨?_, ?_, ?_, ?_⟩
  · intro h hh reg'
    simp only [stepLine, hres, setFromHandler, hh]
    cases h (splitSp text).tail <;> rfl
  · intro h hh
    simp only [stepLine, hres, setFromHandler, hh]
    cases h (splitSp text).tail <;> rfl
  · intro fld hh hfld th hth
    simp only [stepLine, hres, setFromHandler, hh, hfld, Option.getD_some,
      setFromTypeHandler, hth]
    cases th (splitSp text).tail <;> rfl
  · intro fld hh hfld hth
    simp only [stepLine, hres, setFromHandler, hh, hfld, Option.getD_some,
      setFromTypeHandler, hth]

theorem C3_dispatch_priority_witness :
    stepLine defaultTypeHandlersM [(cs "Bool", fun _ => some (cs "oh noes"))]
        (cs "bool false") stSample = .fail (cs "oh noes (from handler)") ∧
    stepLine defaultTypeHandlersM [] (cs "bool nope") stSample
      = .fail (cs "unable to parse \"nope\" as a boolean") ∧
    stepLine [] [] (cs "bool yes") stSample
      = .fail (cs "don't know how to set fields of the type bool") := by
  refine ⟨?_, ?_, ?_⟩
  · exact ((C3_dispatch_priority defaultTypeHandlersM
      [(cs "Bool", fun _ => some (cs "oh noes"))] (cs "bool false") stSample
      (cs "Bool") (by decide)).2.1 _ rfl).trans (by decide)
  · exact ((C3_dispatch_priority defaultTypeHandlersM [] (cs "bool nope") stSample
      (cs "Bool") (by decide)).2.2.1 ⟨cs "bool", .vBool false⟩ rfl (by decide)
      handleBool rfl).trans (by decide)
  · exact ((C3_dispatch_priority [] [] (cs "bool yes") stSample
      (cs "Bool") (by decide)).2.2.2 ⟨cs "bool", .vBool false⟩ rfl (by decide)
      rfl).trans (by decide)

/-- C7: resolution tries the canonical (camelized, acronym-uppercased) name
first, then its plural; when both lookups fail the line fails with an error
naming both attempted field names, and the full parse error also names the
option key and the line number. -/
theorem C7_resolution (key : Str) (st : Struct) :
    (∀ fld : SField, st.findF (canonName key) = some fld →
      fieldNameFromKey key st = .ok (canonName key)) ∧
    (st.findF (canonName key) = none →
      ∀ fld : SField, st.findF (pluralize (canonName key)) = some fld →
      fieldNameFromKey key st = .ok (pluralize (canonName key))) ∧
    (st.findF (canonName key) = none →
      st.findF (pluralize (canonName key)) = none →
      fieldNameFromKey key st = .err (cs "unknown option (field " ++ canonName key
        ++ cs " or " ++ pluralize (canonName key) ++ cs " is missing)")) ∧
    (∀ (reg : Registry) (hmap : Handlers) (file : Str) (no : Nat) (text : Str),
      (splitSp text).headI = key →
      st.findF (canonName key) = none →
      st.findF (pluralize (canonName key)) = none →
      parseLines reg hmap file [⟨no, text⟩] st
        = .ret st (some (fmterr file no key (cs "unknown option (field "
            ++ canonName key ++ cs " or " ++ pluralize (canonName key)
            ++ cs " is missing)")))) := by
  refine ⟨?_, ?_, ?_, ?_⟩
  · intro fld h
    simp only [fieldNameFromKey, h]
  · intro h1 fld h2
    simp only [fieldNameFromKey, h1, h2]
  · intro h1 h2
    simp only [fieldNameFromKey, h1, h2]
  · intro reg hmap file no text htok h1 h2
    simp only [parseLines, stepLine, htok]
    simp only [fieldNameFromKey, h1, h2]

theorem C7_resolution_witness :
    stSample.findF (canonName (cs "not")) = none ∧
    stSample.findF (pluralize (canonName (cs "not"))) = none ∧
    fieldNameFromKey (cs "not") stSample
      = .err (cs "unknown option (field Not or Nots is missing)") ∧
    parseLines defaultTypeHandlersM [] (cs "f") [⟨1, cs "not okay"⟩] stSample
      = .ret stSample (some
          (cs "f line 1: error parsing not: unknown option (field Not or Nots is missing)")) := by
  refine ⟨by decide, by decide, ?_, ?_⟩
  · exact ((C7_resolution (cs "not") stSample).2.2.1 (by decide) (by decide)).trans
      (by decide)
  · exact ((C7_resolution (cs "not") stSample).2.2.2 defaultTypeHandlersM []
      (cs "f") 1 (cs "not okay") (by decide) (by decide) (by decide)).trans (by decide)

/-- C8: the built-in boolean handler accepts exactly the fixed vocabulary,
case-insensitively (via Go's `strings.ToLower`), mapping
`1/true/yes/on/enable/enabled` to true and
`0/false/no/off/disable/disabled` to false, and any other first token makes
it return the error `unable to parse "<token>" as a boolean`. -/
theorem C8_handleBool_vocabulary :
    (∀ (t : Str) (rest : List Str),
      goToLower t ∈ [cs "1", cs "true", cs "yes", cs "on", cs "enable", cs "enabled"] →
      handleBool (t :: rest) = .ok (.vBool true)) ∧
    (∀ (t : Str) (rest : List Str),
      goToLower t ∈ [cs "0", cs "false", cs "no", cs "off", cs "disable", cs "disabled"] →
      handleBool (t :: rest) = .ok (.vBool false)) ∧
    (∀ (t : Str) (rest : List Str),
      goToLower t ∉ [cs "1", cs "true", cs "yes", cs "on", cs "enable", cs "enabled",
        cs "0", cs "false", cs "no", cs "off", cs "disable", cs "disabled"] →
      handleBool (t :: rest)
        = .err (cs "unable to parse \"" ++ t ++ cs "\" as a boolean")) := by
  refine ⟨?_, ?_, ?_⟩
  · intro t rest h
    simp only [List.mem_cons, List.mem_singleton, List.not_mem_nil, or_false] at h
    simp only [handleBool, parseBool]
    rw [if_pos h]
  · intro t rest h
    simp only [List.mem_cons, List.mem_singleton, List.not_mem_nil, or_false] at h
    have hnt : ¬(goToLower t = cs "1" ∨ goToLower t = cs "true" ∨ goToLower t = cs "yes" ∨
        goToLower t = cs "on" ∨ goToLower t = cs "enable" ∨ goToLower t = cs "enabled") := by
      rcases h with h | h | h | h | h | h <;> rw [h] <;> decide
    simp only [handleBool, parseBool]
    rw [if_neg hnt, if_pos h]
  · intro t rest h
    simp only [List.mem_cons, List.not_mem_nil, or_false] at h
    push_neg at h
    obtain ⟨h1, h2, h3, h4, h5, h6, h7, h8, h9, h10, h11, h12⟩ := h
    simp only [handleBool, parseBool]
    rw [if_neg (by tauto), if_neg (by tauto)]

theorem C8_handleBool_vocabulary_witness :
    (goToLower (cs "YES") ∈ [cs "1", cs "true", cs "yes", cs "on", cs "enable", cs "enabled"] ∧
      handleBool [cs "YES"] = .ok (.vBool true)) ∧
    (goToLower (cs "oFF") ∈ [cs "0", cs "false", cs "no", cs "off", cs "disable", cs "disabled"] ∧
      handleBool [cs "oFF"] = .ok (.vBool false)) ∧
    (goToLower (cs "2") ∉ [cs "1", cs "true", cs "yes", cs "on", cs "enable", cs "enabled",
        cs "0", cs "false", cs "no", cs "off", cs "disable", cs "disabled"] ∧
      handleBool [cs "2"] = .err (cs "unable to parse \"2\" as a boolean")) :=
  ⟨⟨by decide, C8_handleBool_vocabulary.1 (cs "YES") [] (by decide)⟩,
   ⟨by decide, C8_handleBool_vocabulary.2.1 (cs "oFF") [] (by decide)⟩,
   ⟨by decide, (C8_handleBool_vocabulary.2.2 (cs "2") [] (by decide)).trans (by decide)⟩⟩

/-- C9: `ValidateValueLimit 2 3` passes token counts 2 and 3 through
unchanged; counts 0 and 1 fail with the "must have more than 2 values"
message, count 4 with the distinct "must have fewer than 3 values" message;
and a `max` of 0, or below `min`, imposes no upper bound. -/
theorem C9_validateValueLimit (a b c d : Str) :
    ValidateValueLimit 2 3 [a, b] = .ok [a, b] ∧
    ValidateValueLimit 2 3 [a, b, c] = .ok [a, b, c] ∧
    ValidateValueLimit 2 3 [] = .err (cs "must have more than 2 values (has: 0)") ∧
    ValidateValueLimit 2 3 [a] = .err (cs "must have more than 2 values (has: 1)") ∧
    ValidateValueLimit 2 3 [a, b, c, d]
      = .err (cs "must have fewer than 3 values (has: 4)") ∧
    cs "must have more than 2 values (has: 1)"
      ≠ cs "must have fewer than 3 values (has: 4)" ∧
    (∀ (mn : Nat) (v : List Str), ¬ v.length < mn →
      ValidateValueLimit mn 0 v = .ok v) ∧
    (∀ (mn mx : Nat) (v : List Str), mx < mn → ¬ v.length < mn →
      ValidateValueLimit mn mx v = .ok v) := by
  refine ⟨?_, ?_, ?_, ?_, ?_, by decide, ?_, ?_⟩
  · simp [ValidateValueLimit]
  · simp [ValidateValueLimit]
  · simp [ValidateValueLimit]; rfl
  · simp [ValidateValueLimit]; rfl
  · simp [ValidateValueLimit]; rfl
  · intro mn v h
    simp [ValidateValueLimit, h]
  · intro mn mx v h1 h2
    rw [ValidateValueLimit, if_neg h2, if_neg (by omega)]

theorem C9_validateValueLimit_witness :
    (¬ ([cs "p", cs "q", cs "r", cs "s", cs "t"] : List Str).length < 2) ∧
    ValidateValueLimit 2 0 [cs "p", cs "q", cs "r", cs "s", cs "t"]
      = .ok [cs "p", cs "q", cs "r", cs "s", cs "t"] ∧
    (3 < 5 ∧ ¬ ([cs "p", cs "q", cs "r", cs "s", cs "t", cs "u", cs "v"] : List Str).length < 5) ∧
    ValidateValueLimit 5 3 [cs "p", cs "q", cs "r", cs "s", cs "t", cs "u", cs "v"]
      = .ok [cs "p", cs "q", cs "r", cs "s", cs "t", cs "u", cs "v"] ∧
    ValidateValueLimit 2 3 [cs "x", cs "y"] = .ok [cs "x", cs "y"] :=
  ⟨by decide,
   (C9_validateValueLimit (cs "x") (cs "y") (cs "z") (cs "w")).2.2.2.2.2.2.1
     2 [cs "p", cs "q", cs "r", cs "s", cs "t"] (by decide),
   by decide,
   (C9_validateValueLimit (cs "x") (cs "y") (cs "z") (cs "w")).2.2.2.2.2.2.2
     5 3 [cs "p", cs "q", cs "r", cs "s", cs "t", cs "u", cs "v"] (by decide) (by decide),
   (C9_validateValueLimit (cs "x") (cs "y") (cs "z") (cs "w")).1⟩

/-- C10: the built-in scalar handlers of this revision read `v[0]` without
a guard, so on the empty token sequence — which `Parse` produces for a line
holding only a key — they panic (index out of range) instead of returning
an error: evaluating `handleBool`, `handleInt64` and a full one-line parse
of `bool` at the failing input. -/
theorem C10_empty_values_panic :
    handleBool [] = .panicked (cs "runtime error: index out of range") ∧
    handleInt64 [] = .panicked (cs "runtime error: index out of range") ∧
    parseLines defaultTypeHandlersM [] (cs "f") [⟨1, cs "bool"⟩] stSample
      = .panicked (cs "runtime error: index out of range") := by
  refine ⟨rfl, rfl, by decide⟩

/-! ## C1: accumulate-for-slices, replace-for-scalars -/

theorem parseLinesA_slice (reg : Registry) (hmap : Handlers) (file : Str)
    (fn : Str) (th : TypeHandler) (res : LLine → List Str) :
    ∀ (lines : List LLine) (st : Struct) (old : List Str),
    (∀ l ∈ lines, fieldNameFromKey (splitSp l.text).headI st = .ok fn) →
    hmap.findH fn = none →
    st.findF fn = some ⟨cs "[]string", .vStrs old⟩ →
    reg.findH (cs "[]string") = some th →
    (∀ l ∈ lines, th (splitSp l.text).tail = .ok (.vStrs (res l))) →
    parseLinesA reg hmap file lines st
      = .ret (st.setF fn (.vStrs (old ++ (lines.map res).flatten))) none := by
  intro lines
  induction lines with
  | nil =>
    intro st old hkey hh hfld hth hres
    simp only [parseLinesA, List.map_nil, List.flatten_nil, List.append_nil]
    rw [setF_self st fn ⟨cs "[]string", .vStrs old⟩ hfld]
  | cons l rest ih =>
    intro st old hkey hh hfld hth hres
    have hstep : stepLineA reg hmap l.text st
        = .ok (st.setF fn (.vStrs (old ++ res l))) := by
      simp only [stepLineA, hkey l (by simp), setFromHandler, hh, hfld,
        Option.getD_some, setFromTypeHandler, hth, hres l (by simp)]
      rfl
    simp only [parseLinesA, hstep]
    have hkey1 : ∀ l' ∈ rest,
        fieldNameFromKey (splitSp l'.text).headI
          (st.setF fn (.vStrs (old ++ res l))) = .ok fn := by
      intro l' hl'
      rw [fieldNameFromKey_setF]
      exact hkey l' (by simp [hl'])
    have hfld1 : (st.setF fn (.vStrs (old ++ res l))).findF fn
        = some ⟨cs "[]string", .vStrs (old ++ res l)⟩ := by
      rw [findF_setF, if_pos rfl, hfld]
      rfl
    rw [ih (st.setF fn (.vStrs (old ++ res l))) (old ++ res l) hkey1 hh hfld1 hth
      (fun l' hl' => hres l' (by simp [hl']))]
    rw [setF_setF]
    simp [List.append_assoc]

theorem parseLinesA_scalar (reg : Registry) (hmap : Handlers) (file : Str)
    (fn : Str) (th : TypeHandler) (res : LLine → Str) :
    ∀ (lines : List LLine) (st : Struct) (oldv : Str) (hne : lines ≠ []),
    (∀ l ∈ lines, fieldNameFromKey (splitSp l.text).headI st = .ok fn) →
    hmap.findH fn = none →
    st.findF fn = some ⟨cs "string", .vStr oldv⟩ →
    reg.findH (cs "string") = some th →
    (∀ l ∈ lines, th (splitSp l.text).tail = .ok (.vStr (res l))) →
    parseLinesA reg hmap file lines st
      = .ret (st.setF fn (.vStr (res (lines.getLast hne)))) none := by
  intro lines
  induction lines with
  | nil =>
    intro st oldv hne
    exact absurd rfl hne
  | cons l rest ih =>
    intro st oldv hne hkey hh hfld hth hres
    have hstep : stepLineA reg hmap l.text st
        = .ok (st.setF fn (.vStr (res l))) := by
      simp only [stepLineA, hkey l (by simp), setFromHandler, hh, hfld,
        Option.getD_some, setFromTypeHandler, hth, hres l (by simp)]
      rfl
    simp only [parseLinesA, hstep]
    cases rest with
    | nil =>
      simp only [parseLinesA]
      rfl
    | cons l2 rest' =>
      have hkey1 : ∀ l' ∈ l2 :: rest',
          fieldNameFromKey (splitSp l'.text).headI
            (st.setF fn (.vStr (res l))) = .ok fn := by
        intro l' hl'
        rw [fieldNameFromKey_setF]
        exact hkey l' (by simp [List.mem_cons.mp hl'])
      have hfld1 : (st.setF fn (.vStr (res l))).findF fn
          = some ⟨cs "string", .vStr (res l)⟩ := by
        rw [findF_setF, if_pos rfl, hfld]
        rfl
      rw [ih (st.setF fn (.vStr (res l))) (res l) (by simp) hkey1 hh hfld1 hth
        (fun l' hl' => hres l' (by simp [List.mem_cons.mp hl']))]
      rw [setF_setF]
      congr 2

/-- C1: with the later-revision dispatcher adopted by the specification
(§4.4/§9), logical lines whose keys all resolve to the same `[]string`
field have their handler results appended in file order, so the field ends
up holding the concatenation of every line's result after its initial
contents; for a scalar `string` field, each later line's result replaces
the earlier one, leaving the last-seen value. -/
theorem C1_slice_accumulate_scalar_replace :
    (∀ (reg : Registry) (hmap : Handlers) (file fn : Str) (th : TypeHandler)
      (res : LLine → List Str) (lines : List LLine) (st : Struct) (old : List Str),
      (∀ l ∈ lines, fieldNameFromKey (splitSp l.text).headI st = .ok fn) →
      hmap.findH fn = none →
      st.findF fn = some ⟨cs "[]string", .vStrs old⟩ →
      reg.findH (cs "[]string") = some th →
      (∀ l ∈ lines, th (splitSp l.text).tail = .ok (.vStrs (res l))) →
      parseLinesA reg hmap file lines st
        = .ret (st.setF fn (.vStrs (old ++ (lines.map res).flatten))) none) ∧
    (∀ (reg : Registry) (hmap : Handlers) (file fn : Str) (th : TypeHandler)
      (res : LLine → Str) (lines : List LLine) (st : Struct) (oldv : Str)
      (hne : lines ≠ []),
      (∀ l ∈ lines, fieldNameFromKey (splitSp l.text).headI st = .ok fn) →
      hmap.findH fn = none →
      st.findF fn = some ⟨cs "string", .vStr oldv⟩ →
      reg.findH (cs "string") = some th →
      (∀ l ∈ lines, th (splitSp l.text).tail = .ok (.vStr (res l))) →
      parseLinesA reg hmap file lines st
        = .ret (st.setF fn (.vStr (res (lines.getLast hne)))) none) :=
  ⟨fun reg hmap file fn th res lines st old =>
    parseLinesA_slice reg hmap file fn th res lines st old,
   fun reg hmap file fn th res lines st oldv hne =>
    parseLinesA_scalar reg hmap file fn th res lines st oldv hne⟩

/-- A target with one `[]string` field named `Str`. -/
def stSliceSample : Struct := [(cs "Str", ⟨cs "[]string", .vStrs []⟩)]

theorem C1_slice_accumulate_scalar_replace_witness :
    parseLinesA defaultTypeHandlersM [] (cs "f")
        [⟨1, cs "str foo"⟩, ⟨2, cs "str bar"⟩] stSliceSample
      = .ret [(cs "Str", ⟨cs "[]string", .vStrs [cs "foo", cs "bar"]⟩)] none ∧
    parseLinesA defaultTypeHandlersM [] (cs "f")
        [⟨1, cs "str foo"⟩, ⟨2, cs "str bar"⟩] stSample
      = .ret (stSample.setF (cs "Str") (.vStr (cs "bar"))) none :=
  ⟨(C1_slice_accumulate_scalar_replace.1 defaultTypeHandlersM [] (cs "f")
      (cs "Str") handleStringSlice (fun l => (splitSp l.text).tail)
      [⟨1, cs "str foo"⟩, ⟨2, cs "str bar"⟩] stSliceSample []
      (by decide) rfl (by decide) rfl (by decide)).trans (by decide),
   (C1_slice_accumulate_scalar_replace.2 defaultTypeHandlersM [] (cs "f")
      (cs "Str") handleString (fun l => joinSp (splitSp l.text).tail)
      [⟨1, cs "str foo"⟩, ⟨2, cs "str bar"⟩] stSample [] (by decide)
      (by decide) rfl (by decide) rfl (by decide)).trans (by decide)⟩
